import Mathlib

/-!
Verification of the zbase32 codec (encode / decode / validate) against its
natural-language specification.  The Rust library is shallowly embedded:
bytes and 5-bit digits are `Nat`s (with explicit `% 2 ^ w` where the Rust
u8/u16 arithmetic wraps), byte strings are `List Nat`, fallible operations
return `Except String`, and the `assert!` precondition checks are modelled
by an `Option` layer (`none` = panic).
-/

namespace Zbase32

/-- Alphabet used by zbase32: the bytes of "ybndrfg8ejkmcpqxot1uwisza345h769". -/
def ALPHABET : List Nat :=
  [121, 98, 110, 100, 114, 102, 103, 56, 101, 106, 107, 109, 99, 112, 113, 120,
   111, 116, 49, 117, 119, 105, 115, 122, 97, 51, 52, 53, 104, 55, 54, 57]

/-- The 256-entry digit-value lookup table (`CONVERSION_TABLE` in the source),
indexed by raw byte value; `none` marks bytes outside the alphabet. -/
def CONVERSION_TABLE : List (Option Nat) :=
  [none, none, none, none, none, none, none, none,
   none, none, none, none, none, none, none, none,
   none, none, none, none, none, none, none, none,
   none, none, none, none, none, none, none, none,
   none, none, none, none, none, none, none, none,
   none, none, none, none, none, none, none, none,
   none, some 18, none, some 25, some 26, some 27, some 30, some 29,
   some 7, some 31, none, none, none, none, none, none,
   none, none, none, none, none, none, none, none,
   none, none, none, none, none, none, none, none,
   none, none, none, none, none, none, none, none,
   none, none, none, none, none, none, none, none,
   none, some 24, some 1, some 12, some 3, some 8, some 5, some 6,
   some 28, some 21, some 9, some 10, none, some 11, some 2, some 16,
   some 13, some 14, some 4, some 22, some 17, some 19, none, some 20,
   some 15, some 0, some 23, none, none, none, none, none,
   none, none, none, none, none, none, none, none,
   none, none, none, none, none, none, none, none,
   none, none, none, none, none, none, none, none,
   none, none, none, none, none, none, none, none,
   none, none, none, none, none, none, none, none,
   none, none, none, none, none, none, none, none,
   none, none, none, none, none, none, none, none,
   none, none, none, none, none, none, none, none,
   none, none, none, none, none, none, none, none,
   none, none, none, none, none, none, none, none,
   none, none, none, none, none, none, none, none,
   none, none, none, none, none, none, none, none,
   none, none, none, none, none, none, none, none,
   none, none, none, none, none, none, none, none,
   none, none, none, none, none, none, none, none,
   none, none, none, none, none, none, none, none]

/-- `value_of_digit`: table lookup, `Err("not a zbase32 digit")` for `none`. -/
def value_of_digit (digit : Nat) : Except String Nat :=
  match CONVERSION_TABLE.getD digit none with
  | some v => Except.ok v
  | none => Except.error "not a zbase32 digit"

/-- The code run after decode's main loop: if `bits_remaining > 0`, trim the
accumulator to `bits_remaining` bits and left-align them into a final byte.
`u16` shifts wrap modulo `2 ^ 16` and the `as u8` cast is `% 256`. -/
def decodeTrail (bitsRem bufSize buf : Nat) : List Nat :=
  if bitsRem = 0 then []
  else
    let trim := bufSize - bitsRem
    let buf2 := buf >>> trim
    let bufSize2 := bufSize - trim
    [((buf2 <<< (8 - bufSize2)) % 65536) % 256]

/-- The `for digit in zbase32` loop of `decode`, including the `break` and the
post-loop trailing-byte code.  The accumulator starts as `!0 : u16 = 65535`. -/
def decodeLoop (digits : List Nat) (bitsRem bufSize buf : Nat) :
    Except String (List Nat) :=
  match digits with
  | [] => Except.ok (decodeTrail bitsRem bufSize buf)
  | d :: rest =>
    match value_of_digit d with
    | Except.error e => Except.error e
    | Except.ok value =>
      let buf1 := ((buf <<< 5) % 65536) ||| value
      let bufSize1 := bufSize + 5
      if bitsRem < 8 ∧ bitsRem ≤ bufSize1 then
        Except.ok (decodeTrail bitsRem bufSize1 buf1)
      else if 8 ≤ bufSize1 then
        match decodeLoop rest (bitsRem - 8) (bufSize1 - 8) buf1 with
        | Except.error e => Except.error e
        | Except.ok bs => Except.ok (((buf1 >>> (bufSize1 - 8)) % 256) :: bs)
      else decodeLoop rest bitsRem bufSize1 buf1

/-- `decode`: `none` models the `assert!(zbase32.len() * 5 >= bits)` panic. -/
def decode (zbase32 : List Nat) (bits : Nat) : Option (Except String (List Nat)) :=
  if bits ≤ zbase32.length * 5 then some (decodeLoop zbase32 bits 0 65535)
  else none

/-- `decode_full_bytes`: bit length is `len * 5` rounded down to a byte boundary. -/
def decode_full_bytes (zbase : List Nat) : Option (Except String (List Nat)) :=
  decode zbase (zbase.length * 5 / 8 * 8)

/-- The window-refill step at the top of encode's loop body: when at least one
whole byte of the 16-bit window has been consumed, shift in the next input
byte (if any). Returns the new `(buffer, bit_offset, remaining)`. -/
def refill (bitOffset : Nat) (remaining : List Nat) (buf : Nat) :
    Nat × Nat × List Nat :=
  if 8 ≤ bitOffset then
    match remaining with
    | first :: others => (((buf <<< 8) % 65536) ||| first, bitOffset - 8, others)
    | [] => (buf, bitOffset, [])
  else (buf, bitOffset, remaining)

/-- The `while bits_remaining > 0` loop of `encode`.  `unused_bits` is the
saturating subtraction `5 - bits_remaining` (`Nat` subtraction saturates),
the shift-amount arithmetic is on `Nat`, and `& 0x1f` is `&&& 31`. -/
def encodeLoop (bitsRem bitOffset : Nat) (remaining : List Nat) (buf : Nat) :
    List Nat :=
  if bitsRem = 0 then []
  else
    match refill bitOffset remaining buf with
    | (buf1, off1, rem1) =>
      let unused := 5 - bitsRem
      let index := (((buf1 >>> (unused + 16 - 5 - off1)) <<< unused) % 65536) &&& 31
      ALPHABET.getD index 0 :: encodeLoop (bitsRem - (5 - unused)) (off1 + 5) rem1 buf1
termination_by bitsRem
decreasing_by omega

/-- `encode`: `none` models the `assert!(data.len() * 8 >= bits)` panic. -/
def encode (data : List Nat) (bits : Nat) : Option (List Nat) :=
  if bits ≤ data.length * 8 then some (encodeLoop bits 16 data 65535)
  else none

/-- `encode_full_bytes data = encode data (data.len() * 8)`. -/
def encode_full_bytes (data : List Nat) : Option (List Nat) :=
  encode data (data.length * 8)

/-- `validate`: every byte is a zbase32 digit. -/
def validate (data : List Nat) : Bool :=
  data.all fun i =>
    match value_of_digit i with
    | Except.ok _ => true
    | Except.error _ => false

/-! ### Bitstream abstraction

The loops above are related to clean operations on streams of bits
(`List Bool`, most significant bit first). -/

/-- The low `w` bits of `x`, most significant first. -/
def natBits : Nat → Nat → List Bool
  | 0, _ => []
  | w + 1, x => x.testBit w :: natBits w x

/-- Value of a bit list read most-significant-bit first. -/
def bitsToNat : List Bool → Nat
  | [] => 0
  | b :: bs => (cond b 1 0) * 2 ^ bs.length + bitsToNat bs

/-- A byte sequence as a bitstream (each byte MSB first). -/
def bytesToBits : List Nat → List Bool
  | [] => []
  | b :: bs => natBits 8 b ++ bytesToBits bs

/-- The 5-bit value of a digit byte (0 for non-digits). -/
def digit_value (d : Nat) : Nat :=
  match value_of_digit d with
  | Except.ok v => v
  | Except.error _ => 0

/-- A digit sequence as the bitstream of its 5-bit values. -/
def symbolsBits : List Nat → List Bool
  | [] => []
  | d :: rest => natBits 5 (digit_value d) ++ symbolsBits rest

/-- Left-align a group of at most 5 bits into a 5-bit value. -/
def pad5 (g : List Bool) : Nat := bitsToNat g * 2 ^ (5 - g.length)

/-- The alphabet symbol for a (possibly short) 5-bit group. -/
def sym5 (g : List Bool) : Nat := ALPHABET.getD (pad5 g) 0

/-- Encode a bitstream: split into 5-bit groups, zero-pad the last group. -/
def chunkEnc : List Bool → List Nat
  | [] => []
  | b1 :: b2 :: b3 :: b4 :: b5 :: rest => sym5 [b1, b2, b3, b4, b5] :: chunkEnc rest
  | bs => [sym5 bs]

/-- Left-align a group of at most 8 bits into a byte. -/
def pad8 (g : List Bool) : Nat := bitsToNat g * 2 ^ (8 - g.length)

/-- Pack a bitstream into bytes: 8-bit groups, zero-pad the last group. -/
def chunkDec : List Bool → List Nat
  | [] => []
  | b1 :: b2 :: b3 :: b4 :: b5 :: b6 :: b7 :: b8 :: rest =>
      pad8 [b1, b2, b3, b4, b5, b6, b7, b8] :: chunkDec rest
  | bs => [pad8 bs]

/-- Mirror of the decode loop's control flow: `true` iff the loop terminates
(by `break` or by the `?` error propagation) strictly within the given
digits, so that any appended digits are never consumed. -/
def stopsLoop (digits : List Nat) (bitsRem bufSize : Nat) : Bool :=
  match digits with
  | [] => false
  | d :: rest =>
    match value_of_digit d with
    | Except.error _ => true
    | Except.ok _ =>
      let bufSize1 := bufSize + 5
      if bitsRem < 8 ∧ bitsRem ≤ bufSize1 then true
      else if 8 ≤ bufSize1 then stopsLoop rest (bitsRem - 8) (bufSize1 - 8)
      else stopsLoop rest bitsRem bufSize1

/-! ### Basic facts about the bitstream operations -/

theorem natBits_length (w x : Nat) : (natBits w x).length = w := by
  induction w generalizing x with
  | zero => rfl
  | succ w ih => simp [natBits, ih]

theorem bitsToNat_lt (bs : List Bool) : bitsToNat bs < 2 ^ bs.length := by
  induction bs with
  | nil => simp [bitsToNat]
  | cons b bs ih => cases b <;> simp [bitsToNat, pow_succ] <;> omega

theorem natBits_add (m k x : Nat) :
    natBits (m + k) x = natBits m (x >>> k) ++ natBits k x := by
  induction m with
  | zero => simp [natBits]
  | succ m ih =>
    have h1 : m + 1 + k = (m + k) + 1 := by omega
    rw [h1]
    simp only [natBits, ih, List.cons_append, Nat.testBit_shiftRight]
    rw [Nat.add_comm k m]

theorem natBits_congr {w x y : Nat} (h : ∀ i, i < w → x.testBit i = y.testBit i) :
    natBits w x = natBits w y := by
  induction w with
  | zero => rfl
  | succ w ih =>
    simp only [natBits]
    rw [h w (Nat.lt_succ_self w), ih fun i hi => h i (Nat.lt_succ_of_lt hi)]

theorem natBits_mod (w x : Nat) : natBits w (x % 2 ^ w) = natBits w x := by
  refine natBits_congr fun i hi => ?_
  simp [Nat.testBit_mod_two_pow, hi]

theorem natBits_zero (w : Nat) : natBits w 0 = List.replicate w false := by
  induction w with
  | zero => rfl
  | succ w ih => simp [natBits, ih, List.replicate_succ]

theorem bitsToNat_natBits (w x : Nat) : bitsToNat (natBits w x) = x % 2 ^ w := by
  induction w with
  | zero => simp [natBits, bitsToNat, Nat.mod_one]
  | succ w ih =>
    simp only [natBits, bitsToNat, natBits_length, ih]
    rw [Nat.mod_pow_succ]
    rcases Nat.mod_two_eq_zero_or_one (x / 2 ^ w) with h | h <;>
      (simp [Nat.testBit_to_div_mod, h]; try omega)

theorem natBits_bitsToNat (bs : List Bool) :
    natBits bs.length (bitsToNat bs) = bs := by
  induction bs with
  | nil => rfl
  | cons b bs ih =>
    have hlt := bitsToNat_lt bs
    simp only [List.length_cons, natBits, bitsToNat]
    congr 1
    · rw [Nat.mul_comm]
      rw [Nat.testBit_mul_pow_two_add (cond b 1 0) hlt bs.length]
      cases b <;> simp
    · have hmod : ((cond b 1 0) * 2 ^ bs.length + bitsToNat bs) % 2 ^ bs.length
          = bitsToNat bs := by
        rw [Nat.mul_comm, Nat.mul_add_mod, Nat.mod_eq_of_lt hlt]
      calc natBits bs.length ((cond b 1 0) * 2 ^ bs.length + bitsToNat bs)
          = natBits bs.length (((cond b 1 0) * 2 ^ bs.length + bitsToNat bs)
              % 2 ^ bs.length) := (natBits_mod _ _).symm
        _ = natBits bs.length (bitsToNat bs) := by rw [hmod]
        _ = bs := ih

theorem natBits_take {m w : Nat} (x : Nat) (h : m ≤ w) :
    (natBits w x).take m = natBits m (x >>> (w - m)) := by
  have hw : w = m + (w - m) := by omega
  conv_lhs => rw [hw, natBits_add]
  exact List.take_left' (natBits_length _ _)

theorem natBits_drop {m w : Nat} (x : Nat) (h : m ≤ w) :
    (natBits w x).drop m = natBits (w - m) x := by
  have hw : w = m + (w - m) := by omega
  conv_lhs => rw [hw, natBits_add]
  exact List.drop_left' (natBits_length _ _)

theorem bytesToBits_length (d : List Nat) : (bytesToBits d).length = 8 * d.length := by
  induction d with
  | nil => rfl
  | cons b bs ih => simp [bytesToBits, ih, natBits_length]; omega

theorem symbolsBits_length (s : List Nat) : (symbolsBits s).length = 5 * s.length := by
  induction s with
  | nil => rfl
  | cons d rest ih => simp [symbolsBits, ih, natBits_length]; omega

theorem chunkEnc_eq (bs : List Bool) (h : bs ≠ []) :
    chunkEnc bs = sym5 (bs.take 5) :: chunkEnc (bs.drop 5) := by
  rcases bs with _ | ⟨b1, _ | ⟨b2, _ | ⟨b3, _ | ⟨b4, _ | ⟨b5, rest⟩⟩⟩⟩⟩
  · exact absurd rfl h
  all_goals rfl

theorem chunkDec_eq (bs : List Bool) (h : bs ≠ []) :
    chunkDec bs = pad8 (bs.take 8) :: chunkDec (bs.drop 8) := by
  rcases bs with _ | ⟨b1, _ | ⟨b2, _ | ⟨b3, _ | ⟨b4, _ | ⟨b5, _ | ⟨b6, _ | ⟨b7,
    _ | ⟨b8, rest⟩⟩⟩⟩⟩⟩⟩⟩
  · exact absurd rfl h
  all_goals rfl

theorem chunkEnc_length (bs : List Bool) :
    (chunkEnc bs).length = (bs.length + 4) / 5 := by
  by_cases h : bs = []
  · subst h; rfl
  · rw [chunkEnc_eq bs h]
    have ih := chunkEnc_length (bs.drop 5)
    have hpos : 0 < bs.length := List.length_pos.mpr h
    simp only [List.length_cons, ih, List.length_drop]
    omega
termination_by bs.length
decreasing_by
  have : 0 < bs.length := List.length_pos.mpr h
  simp only [List.length_drop]; omega

theorem chunkDec_length (bs : List Bool) :
    (chunkDec bs).length = (bs.length + 7) / 8 := by
  by_cases h : bs = []
  · subst h; rfl
  · rw [chunkDec_eq bs h]
    have ih := chunkDec_length (bs.drop 8)
    have hpos : 0 < bs.length := List.length_pos.mpr h
    simp only [List.length_cons, ih, List.length_drop]
    omega
termination_by bs.length
decreasing_by
  have : 0 < bs.length := List.length_pos.mpr h
  simp only [List.length_drop]; omega

/-! ### The accumulator windows as bitstream segments -/

/-- Shifting a 5-bit value into decode's `u16` accumulator appends its bits
to the meaningful low window. -/
theorem window_shift_in (s v buf : Nat) (hs : s + 5 ≤ 16) (hv : v < 32) :
    natBits (s + 5) (((buf <<< 5) % 65536) ||| v) = natBits s buf ++ natBits 5 v := by
  have h65536 : (65536 : Nat) = 2 ^ 16 := by norm_num
  rw [natBits_add, h65536]
  congr 1
  · refine natBits_congr fun i hi => ?_
    have hvb : v.testBit (5 + i) = false := Nat.testBit_lt_two_pow (by
      have h2 : (32 : Nat) ≤ 2 ^ (5 + i) := by
        calc (32 : Nat) = 2 ^ 5 := by norm_num
          _ ≤ 2 ^ (5 + i) := Nat.pow_le_pow_right (by norm_num) (by omega)
      omega)
    have h16 : 5 + i < 16 := by omega
    have hsub : 5 + i - 5 = i := by omega
    simp only [Nat.testBit_shiftRight, Nat.testBit_or, Nat.testBit_mod_two_pow,
      Nat.testBit_shiftLeft, hvb, hsub, Bool.or_false]
    simp [h16, Nat.le_add_right]
  · refine natBits_congr fun i hi => ?_
    have hi5 : ¬ 5 ≤ i := by omega
    simp only [Nat.testBit_or, Nat.testBit_mod_two_pow, Nat.testBit_shiftLeft]
    simp [hi5]

/-- Refilling encode's window with the next input byte appends the byte's
bits to the unconsumed window segment. -/
theorem refill_window (off f buf : Nat) (h8 : 8 ≤ off) (h16 : off ≤ 16) (hf : f < 256) :
    natBits (24 - off) (((buf <<< 8) % 65536) ||| f)
      = natBits (16 - off) buf ++ natBits 8 f := by
  have h65536 : (65536 : Nat) = 2 ^ 16 := by norm_num
  have hsplit : 24 - off = (16 - off) + 8 := by omega
  rw [hsplit, natBits_add, h65536]
  congr 1
  · refine natBits_congr fun i hi => ?_
    have hfb : f.testBit (8 + i) = false := Nat.testBit_lt_two_pow (by
      have h2 : (256 : Nat) ≤ 2 ^ (8 + i) := by
        calc (256 : Nat) = 2 ^ 8 := by norm_num
          _ ≤ 2 ^ (8 + i) := Nat.pow_le_pow_right (by norm_num) (by omega)
      omega)
    have hlt : 8 + i < 16 := by omega
    have hsub : 8 + i - 8 = i := by omega
    simp only [Nat.testBit_shiftRight, Nat.testBit_or, Nat.testBit_mod_two_pow,
      Nat.testBit_shiftLeft, hfb, hsub, Bool.or_false]
    simp [hlt, Nat.le_add_right]
  · refine natBits_congr fun i hi => ?_
    have hi8 : ¬ 8 ≤ i := by omega
    simp only [Nat.testBit_or, Nat.testBit_mod_two_pow, Nat.testBit_shiftLeft]
    simp [hi8]

/-- The top `m` window bits, left-aligned into 5 bits, as computed by
encode's index expression. -/
theorem extract_index (buf w m : Nat) (hm : m ≤ 5) (hw : m ≤ w) :
    (((buf >>> (w - m)) <<< (5 - m)) % 65536) &&& 31
      = bitsToNat ((natBits w buf).take m) * 2 ^ (5 - m) := by
  rw [natBits_take buf hw, bitsToNat_natBits]
  have h31 : ∀ z : Nat, z &&& 31 = z % 32 := fun z => by
    have h := Nat.and_pow_two_sub_one_eq_mod z 5
    norm_num at h
    exact h
  rw [h31, Nat.mod_mod_of_dvd _ (by norm_num : (32:Nat) ∣ 65536), Nat.shiftLeft_eq]
  have h32 : (32 : Nat) = 2 ^ m * 2 ^ (5 - m) := by
    rw [← pow_add, show m + (5 - m) = 5 by omega]
    norm_num
  rw [h32, Nat.mul_mod_mul_right]

/-- The trailing-byte code emits the remaining wanted bits, left-aligned. -/
theorem decodeTrail_spec (bitsRem bufSize buf : Nat)
    (h1 : bitsRem ≤ bufSize) (h2 : bitsRem < 8) :
    decodeTrail bitsRem bufSize buf = chunkDec ((natBits bufSize buf).take bitsRem) := by
  by_cases h0 : bitsRem = 0
  · subst h0; simp [decodeTrail, chunkDec]
  · rw [natBits_take buf h1]
    unfold decodeTrail
    rw [if_neg h0]
    have hbs : bufSize - (bufSize - bitsRem) = bitsRem := by omega
    rw [chunkDec_eq _ (by
      refine fun hh => h0 ?_
      have := congrArg List.length hh
      simpa [natBits_length] using this)]
    rw [List.take_of_length_le (by simp [natBits_length]; omega),
      List.drop_of_length_le (by simp [natBits_length]; omega)]
    simp only [hbs, pad8, natBits_length, bitsToNat_natBits, chunkDec]
    rw [Nat.mod_mod_of_dvd _ (by norm_num : (256:Nat) ∣ 65536), Nat.shiftLeft_eq]
    have h256 : (256 : Nat) = 2 ^ bitsRem * 2 ^ (8 - bitsRem) := by
      rw [← pow_add, show bitsRem + (8 - bitsRem) = 8 by omega]
      norm_num
    rw [h256, Nat.mul_mod_mul_right]

/-! ### Digit values -/

set_option maxRecDepth 10000 in
theorem conv_table_lt : ∀ o ∈ CONVERSION_TABLE, o.getD 0 < 32 := by decide

theorem value_of_digit_lt {d v : Nat} (h : value_of_digit d = Except.ok v) :
    v < 32 := by
  unfold value_of_digit at h
  rcases hg : CONVERSION_TABLE.getD d none with _ | v'
  · rw [hg] at h; exact absurd h (by simp)
  · rw [hg] at h
    have hv : v' = v := by
      simpa using h
    rw [List.getD_eq_getElem?_getD] at hg
    rcases he : CONVERSION_TABLE[d]? with _ | o
    · rw [he] at hg; simp at hg
    · rw [he] at hg
      simp only [Option.getD_some] at hg
      subst hg
      have hmem : some v' ∈ CONVERSION_TABLE := List.getElem?_mem he
      have hlt := conv_table_lt _ hmem
      simp only [Option.getD_some] at hlt
      omega

theorem validate_cons (d : Nat) (rest : List Nat) :
    validate (d :: rest) = true ↔
      (∃ v, value_of_digit d = Except.ok v) ∧ validate rest = true := by
  simp only [validate, List.all_cons, Bool.and_eq_true]
  rcases h : value_of_digit d with e | v <;> simp [h]

theorem digit_value_of_ok {d v : Nat} (h : value_of_digit d = Except.ok v) :
    digit_value d = v := by
  simp [digit_value, h]

/-! ### Decode loop characterization -/

/-- The decode loop on all-valid input returns the first `bitsRem` bits of
(window ++ digit bitstream), packed into bytes with zero padding. -/
theorem decodeLoop_spec (digits : List Nat) : ∀ bitsRem bufSize buf : Nat,
    validate digits = true →
    bufSize < 8 →
    bitsRem ≤ bufSize + 5 * digits.length →
    decodeLoop digits bitsRem bufSize buf
      = Except.ok (chunkDec ((natBits bufSize buf ++ symbolsBits digits).take bitsRem)) := by
  induction digits with
  | nil =>
    intro bitsRem bufSize buf _ hbs hle
    simp only [List.length_nil, Nat.mul_zero, Nat.add_zero] at hle
    simp only [decodeLoop, symbolsBits, List.append_nil]
    rw [decodeTrail_spec bitsRem bufSize buf hle (by omega)]
  | cons d rest ih =>
    intro bitsRem bufSize buf hval hbs hle
    obtain ⟨⟨v, hv⟩, hvrest⟩ := (validate_cons d rest).mp hval
    have hv32 : v < 32 := value_of_digit_lt hv
    have hwin : natBits (bufSize + 5) (((buf <<< 5) % 65536) ||| v)
        = natBits bufSize buf ++ natBits 5 v :=
      window_shift_in bufSize v buf (by omega) hv32
    have hstream : natBits bufSize buf ++ symbolsBits (d :: rest)
        = natBits (bufSize + 5) (((buf <<< 5) % 65536) ||| v) ++ symbolsBits rest := by
      rw [hwin, symbolsBits, digit_value_of_ok hv, List.append_assoc]
    simp only [decodeLoop, hv]
    rw [hstream]
    set buf1 := ((buf <<< 5) % 65536) ||| v with hbuf1
    by_cases hbreak : bitsRem < 8 ∧ bitsRem ≤ bufSize + 5
    · rw [if_pos hbreak]
      rw [decodeTrail_spec bitsRem (bufSize + 5) buf1 hbreak.2 hbreak.1]
      rw [List.take_append_of_le_length (by rw [natBits_length]; exact hbreak.2)]
    · rw [if_neg hbreak]
      by_cases h8 : 8 ≤ bufSize + 5
      · rw [if_pos h8]
        have hbr8 : 8 ≤ bitsRem := by omega
        have hwin1 : natBits (bufSize + 5 - 8) buf1
            = (natBits (bufSize + 5) buf1).drop 8 := (natBits_drop buf1 h8).symm
        have htake8 : ((natBits (bufSize + 5) buf1 ++ symbolsBits rest).take bitsRem).take 8
            = natBits 8 (buf1 >>> (bufSize + 5 - 8)) := by
          rw [List.take_take, Nat.min_eq_left hbr8,
            List.take_append_of_le_length (by rw [natBits_length]; omega),
            natBits_take buf1 h8]
        have hdrop8 : ((natBits (bufSize + 5) buf1 ++ symbolsBits rest).take bitsRem).drop 8
            = ((natBits (bufSize + 5 - 8) buf1 ++ symbolsBits rest).take (bitsRem - 8)) := by
          rw [List.drop_take, hwin1,
            List.drop_append_of_le_length (by rw [natBits_length]; omega)]
        have hlen : ((natBits (bufSize + 5) buf1 ++ symbolsBits rest).take bitsRem).length
            = bitsRem := by
          rw [List.length_take, List.length_append, natBits_length, symbolsBits_length]
          simp only [List.length_cons] at hle
          omega
        have hTne : (natBits (bufSize + 5) buf1 ++ symbolsBits rest).take bitsRem ≠ [] := by
          refine fun hh => ?_
          rw [hh] at hlen
          simp at hlen
          omega
        conv_rhs => rw [chunkDec_eq _ hTne, htake8, hdrop8]
        rw [ih (bitsRem - 8) (bufSize + 5 - 8) buf1 hvrest (by omega) (by
          simp only [List.length_cons] at hle; omega)]
        have hpad : pad8 (natBits 8 (buf1 >>> (bufSize + 5 - 8)))
            = (buf1 >>> (bufSize + 5 - 8)) % 256 := by
          simp only [pad8, natBits_length, Nat.sub_self, pow_zero, Nat.mul_one,
            bitsToNat_natBits]
          norm_num
        rw [hpad]
      · rw [if_neg h8]
        rw [ih bitsRem (bufSize + 5) buf1 hvrest (by omega) (by
          simp only [List.length_cons] at hle; omega)]

/-! ### Encode loop characterization -/

theorem encodeLoop_zero (off : Nat) (rem : List Nat) (buf : Nat) :
    encodeLoop 0 off rem buf = [] := by
  simp [encodeLoop]

/-- One unfolding of the encode loop with the refill step resolved. -/
theorem encodeLoop_unfold (bitsRem bitOffset : Nat) (remaining : List Nat)
    (buf buf1 off1 : Nat) (rem1 : List Nat) (h0 : bitsRem ≠ 0)
    (hr : refill bitOffset remaining buf = (buf1, off1, rem1)) :
    encodeLoop bitsRem bitOffset remaining buf
      = ALPHABET.getD
          ((((buf1 >>> (5 - bitsRem + 16 - 5 - off1)) <<< (5 - bitsRem)) % 65536) &&& 31) 0
        :: encodeLoop (bitsRem - (5 - (5 - bitsRem))) (off1 + 5) rem1 buf1 := by
  conv_lhs => rw [encodeLoop]
  rw [if_neg h0, hr]

/-- The encode loop emits exactly the 5-bit groups of the first `bitsRem`
bits of (window ++ input bitstream), mapped through the alphabet. -/
theorem encodeLoop_spec (bitsRem bitOffset : Nat) (remaining : List Nat) (buf : Nat)
    (h256 : ∀ x ∈ remaining, x < 256) (h16 : bitOffset ≤ 16)
    (hle : bitsRem ≤ (16 - bitOffset) + 8 * remaining.length) :
    encodeLoop bitsRem bitOffset remaining buf
      = chunkEnc ((natBits (16 - bitOffset) buf ++ bytesToBits remaining).take bitsRem) := by
  by_cases h0 : bitsRem = 0
  · subst h0
    simp [encodeLoop, chunkEnc]
  · rcases hr : refill bitOffset remaining buf with ⟨buf1, off1, rem1⟩
    have hfacts : natBits (16 - off1) buf1 ++ bytesToBits rem1
            = natBits (16 - bitOffset) buf ++ bytesToBits remaining
        ∧ off1 ≤ 16 ∧ (∀ x ∈ rem1, x < 256)
        ∧ bitsRem ≤ (16 - off1) + 8 * rem1.length
        ∧ min 5 bitsRem ≤ 16 - off1 := by
      unfold refill at hr
      by_cases hob : 8 ≤ bitOffset
      · rw [if_pos hob] at hr
        cases remaining with
        | nil =>
          simp only [Prod.mk.injEq] at hr
          obtain ⟨hb, ho, hm⟩ := hr
          subst hb; subst ho; subst hm
          simp only [List.length_nil, Nat.mul_zero, Nat.add_zero] at hle
          exact ⟨rfl, h16, by simp, by simpa using hle, by omega⟩
        | cons f rest =>
          simp only [Prod.mk.injEq] at hr
          obtain ⟨hb, ho, hm⟩ := hr
          subst hb; subst ho; subst hm
          have hf : f < 256 := h256 f (by simp)
          have hwin : natBits (16 - (bitOffset - 8)) (((buf <<< 8) % 65536) ||| f)
              = natBits (16 - bitOffset) buf ++ natBits 8 f := by
            rw [show 16 - (bitOffset - 8) = 24 - bitOffset by omega]
            exact refill_window bitOffset f buf hob h16 hf
          refine ⟨?_, by omega, fun x hx => h256 x (by simp [hx]), ?_, by omega⟩
          · rw [hwin, bytesToBits, List.append_assoc]
          · simp only [List.length_cons] at hle ⊢
            omega
      · rw [if_neg hob] at hr
        simp only [Prod.mk.injEq] at hr
        obtain ⟨hb, ho, hm⟩ := hr
        subst hb; subst ho; subst hm
        exact ⟨rfl, h16, h256, hle, by omega⟩
    obtain ⟨hstream, hoff1, h256b, hle1, hmin⟩ := hfacts
    rw [encodeLoop_unfold bitsRem bitOffset remaining buf buf1 off1 rem1 h0 hr, ← hstream]
    have hTlen : ((natBits (16 - off1) buf1 ++ bytesToBits rem1).take bitsRem).length
        = bitsRem := by
      rw [List.length_take, List.length_append, natBits_length, bytesToBits_length]
      omega
    have hTne : (natBits (16 - off1) buf1 ++ bytesToBits rem1).take bitsRem ≠ [] := by
      intro hh; rw [hh] at hTlen; simp at hTlen; omega
    rw [chunkEnc_eq _ hTne]
    congr 1
    · have htake : ((natBits (16 - off1) buf1 ++ bytesToBits rem1).take bitsRem).take 5
          = natBits (min 5 bitsRem) (buf1 >>> ((16 - off1) - min 5 bitsRem)) := by
        rw [List.take_take,
          List.take_append_of_le_length (by rw [natBits_length]; exact hmin),
          natBits_take buf1 hmin]
      rw [htake]
      simp only [sym5, pad5, natBits_length, bitsToNat_natBits]
      congr 1
      have h1 : 5 - bitsRem + 16 - 5 - off1 = (16 - off1) - min 5 bitsRem := by omega
      have h2 : 5 - bitsRem = 5 - min 5 bitsRem := by omega
      rw [h1, h2, extract_index buf1 (16 - off1) (min 5 bitsRem) (by omega) hmin,
        natBits_take buf1 hmin, bitsToNat_natBits]
    · by_cases hbr5 : bitsRem ≤ 5
      · have hz : bitsRem - (5 - (5 - bitsRem)) = 0 := by omega
        rw [hz, encodeLoop_zero]
        have hd : ((natBits (16 - off1) buf1 ++ bytesToBits rem1).take bitsRem).drop 5
            = [] := List.drop_of_length_le (by rw [hTlen]; exact hbr5)
        rw [hd]
        rfl
      · have hm : min 5 bitsRem = 5 := by omega
        have hz : bitsRem - (5 - (5 - bitsRem)) = bitsRem - 5 := by omega
        have h5w : 5 ≤ 16 - off1 := by omega
        have hdrop5 : ((natBits (16 - off1) buf1 ++ bytesToBits rem1).take bitsRem).drop 5
            = (natBits (16 - (off1 + 5)) buf1 ++ bytesToBits rem1).take (bitsRem - 5) := by
          rw [List.drop_take, List.drop_append_of_le_length (by rw [natBits_length]; omega),
            natBits_drop buf1 h5w, show (16 - off1) - 5 = 16 - (off1 + 5) by omega]
        rw [hz, hdrop5]
        exact encodeLoop_spec (bitsRem - 5) (off1 + 5) rem1 buf1 h256b (by omega)
          (by omega)
termination_by bitsRem
decreasing_by omega

/-! ### Bridging lemmas: re-reading encoded output -/

theorem pad5_lt (g : List Bool) (h : g.length ≤ 5) : pad5 g < 32 := by
  have h1 := bitsToNat_lt g
  have h2 : pad5 g < 2 ^ g.length * 2 ^ (5 - g.length) :=
    Nat.mul_lt_mul_of_lt_of_le h1 (Nat.le_refl _) (Nat.pos_pow_of_pos _ (by norm_num))
  calc pad5 g < 2 ^ g.length * 2 ^ (5 - g.length) := h2
    _ = 2 ^ 5 := by rw [← pow_add, show g.length + (5 - g.length) = 5 by omega]
    _ = 32 := by norm_num

theorem natBits_pad5 (g : List Bool) (h : g.length ≤ 5) :
    natBits 5 (pad5 g) = g ++ List.replicate (5 - g.length) false := by
  have h5 : (5 : Nat) = g.length + (5 - g.length) := by omega
  conv_lhs => rw [h5, natBits_add]
  congr 1
  · rw [Nat.shiftRight_eq_div_pow, pad5,
      Nat.mul_div_cancel _ (Nat.pos_pow_of_pos _ (by norm_num))]
    exact natBits_bitsToNat g
  · rw [← natBits_mod, pad5, Nat.mul_mod_left, natBits_zero]

set_option maxRecDepth 10000 in
theorem alphabet_table : ∀ i, i < 32 →
    CONVERSION_TABLE.getD (ALPHABET.getD i 0) none = some i := by
  decide

theorem alphabet_ok : ∀ i, i < 32 → value_of_digit (ALPHABET.getD i 0) = Except.ok i := by
  intro i hi
  unfold value_of_digit
  rw [alphabet_table i hi]

theorem digit_value_sym5 (g : List Bool) (h : g.length ≤ 5) :
    digit_value (sym5 g) = pad5 g :=
  digit_value_of_ok (alphabet_ok (pad5 g) (pad5_lt g h))

theorem symbolsBits_chunkEnc (bs : List Bool) :
    symbolsBits (chunkEnc bs) = bs ++ List.replicate ((5 - bs.length % 5) % 5) false := by
  by_cases h : bs = []
  · subst h; rfl
  · have hpos : 0 < bs.length := List.length_pos.mpr h
    rw [chunkEnc_eq bs h, symbolsBits,
      digit_value_sym5 _ (by rw [List.length_take]; omega),
      natBits_pad5 _ (by rw [List.length_take]; omega),
      symbolsBits_chunkEnc (bs.drop 5)]
    by_cases h5 : 5 ≤ bs.length
    · have hl : (bs.take 5).length = 5 := by rw [List.length_take]; omega
      have hmods : (bs.drop 5).length % 5 = bs.length % 5 := by
        rw [List.length_drop]; omega
      rw [hl, hmods, Nat.sub_self, List.replicate_zero, List.append_nil,
        ← List.append_assoc, List.take_append_drop]
    · have hl : (bs.take 5).length = bs.length := by rw [List.length_take]; omega
      rw [List.take_of_length_le (by omega), List.drop_of_length_le (by omega)]
      have hrep : (5 - ([] : List Bool).length % 5) % 5 = 0 := by simp
      have hcount : 5 - bs.length = (5 - bs.length % 5) % 5 := by omega
      simp [chunkEnc, symbolsBits, hcount]
termination_by bs.length
decreasing_by
  have : 0 < bs.length := List.length_pos.mpr h
  simp only [List.length_drop]; omega

theorem validate_chunkEnc (bs : List Bool) : validate (chunkEnc bs) = true := by
  by_cases h : bs = []
  · subst h; rfl
  · have hpos : 0 < bs.length := List.length_pos.mpr h
    rw [chunkEnc_eq bs h]
    refine (validate_cons _ _).mpr ⟨⟨pad5 (bs.take 5), ?_⟩, validate_chunkEnc (bs.drop 5)⟩
    exact alphabet_ok _ (pad5_lt _ (by rw [List.length_take]; omega))
termination_by bs.length
decreasing_by
  have : 0 < bs.length := List.length_pos.mpr h
  simp only [List.length_drop]; omega

theorem chunkDec_bytesToBits (d : List Nat) (h : ∀ b ∈ d, b < 256) :
    chunkDec (bytesToBits d) = d := by
  induction d with
  | nil => rfl
  | cons b rest ih =>
    have hb : b < 256 := h b (by simp)
    rw [bytesToBits, chunkDec_eq _ (by
      intro hh
      have := congrArg List.length hh
      simp [natBits_length] at this)]
    rw [List.take_left' (natBits_length 8 b), List.drop_left' (natBits_length 8 b),
      ih fun x hx => h x (by simp [hx])]
    have hpad : pad8 (natBits 8 b) = b := by
      simp only [pad8, natBits_length, Nat.sub_self, pow_zero, Nat.mul_one,
        bitsToNat_natBits]
      rw [Nat.mod_eq_of_lt (by norm_num; omega)]
    rw [hpad]

/-! ### Top-level characterizations -/

/-- `encode` under its precondition: the first `bits` bits of the input,
in 5-bit groups through the alphabet. -/
theorem encode_spec (d : List Nat) (bits : Nat) (h256 : ∀ b ∈ d, b < 256)
    (hle : bits ≤ d.length * 8) :
    encode d bits = some (chunkEnc ((bytesToBits d).take bits)) := by
  unfold encode
  rw [if_pos hle]
  congr 1
  rw [encodeLoop_spec bits 16 d 65535 h256 (Nat.le_refl 16) (by omega)]
  rfl

/-- `decode` on all-valid input under its precondition: the first `bits`
bits of the symbol bitstream, packed into zero-padded bytes. -/
theorem decode_spec (s : List Nat) (bits : Nat) (hval : validate s = true)
    (hle : bits ≤ s.length * 5) :
    decode s bits = some (Except.ok (chunkDec ((symbolsBits s).take bits))) := by
  unfold decode
  rw [if_pos hle]
  congr 1
  rw [decodeLoop_spec s bits 0 65535 hval (by norm_num) (by omega)]
  rfl

/-- On input containing an invalid digit, the decode loop always reaches and
reports it, provided the wanted bit count is a whole-byte count covering all
but the last partial byte of the input (the `decode_full_bytes` situation). -/
theorem decodeLoop_err (digits : List Nat) : ∀ bitsRem bufSize buf : Nat,
    validate digits = false →
    5 * digits.length + bufSize < bitsRem + 8 →
    bitsRem % 8 = 0 →
    decodeLoop digits bitsRem bufSize buf = Except.error "not a zbase32 digit" := by
  induction digits with
  | nil =>
    intro _ _ _ hval _ _
    simp [validate] at hval
  | cons d rest ih =>
    intro bitsRem bufSize buf hval hJ hmod
    rcases hv : value_of_digit d with e | v
    · have he : e = "not a zbase32 digit" := by
        unfold value_of_digit at hv
        rcases hg : CONVERSION_TABLE.getD d none with _ | v'
        · rw [hg] at hv
          simpa using hv.symm
        · rw [hg] at hv
          simp at hv
      subst he
      simp [decodeLoop, hv]
    · have hvrest : validate rest = false := by
        rcases hbv : validate rest
        · rfl
        · have := (validate_cons d rest).mpr ⟨⟨v, hv⟩, hbv⟩
          rw [this] at hval
          cases hval
      simp only [decodeLoop, hv]
      have hnb : ¬(bitsRem < 8 ∧ bitsRem ≤ bufSize + 5) := by
        rintro ⟨hlt, _⟩
        have h0 : bitsRem = 0 := by omega
        have hlen0 : rest.length = 0 := by
          simp only [List.length_cons] at hJ
          omega
        rw [List.length_eq_zero.mp hlen0] at hvrest
        simp [validate] at hvrest
      rw [if_neg hnb]
      have hbr8 : 8 ≤ bitsRem := by
        rcases Nat.lt_or_ge bitsRem 8 with hl | hg
        · exact absurd ⟨hl, by omega⟩ hnb
        · exact hg
      by_cases h8 : 8 ≤ bufSize + 5
      · rw [if_pos h8]
        rw [ih (bitsRem - 8) (bufSize + 5 - 8) _ hvrest
          (by simp only [List.length_cons] at hJ; omega) (by omega)]
      · rw [if_neg h8]
        exact ih bitsRem (bufSize + 5) _ hvrest
          (by simp only [List.length_cons] at hJ; omega) hmod

/-! ### Output lengths -/

theorem decodeTrail_length (bitsRem bufSize buf : Nat) :
    (decodeTrail bitsRem bufSize buf).length = if bitsRem = 0 then 0 else 1 := by
  unfold decodeTrail
  split_ifs <;> rfl

theorem encodeLoop_length (bitsRem bitOffset : Nat) (remaining : List Nat) (buf : Nat) :
    (encodeLoop bitsRem bitOffset remaining buf).length = (bitsRem + 4) / 5 := by
  by_cases h0 : bitsRem = 0
  · subst h0
    rw [encodeLoop_zero]
    rfl
  · rcases hr : refill bitOffset remaining buf with ⟨buf1, off1, rem1⟩
    rw [encodeLoop_unfold _ _ _ _ _ _ _ h0 hr, List.length_cons,
      encodeLoop_length (bitsRem - (5 - (5 - bitsRem))) (off1 + 5) rem1 buf1]
    omega
termination_by bitsRem
decreasing_by omega

theorem decodeLoop_length (digits : List Nat) : ∀ bitsRem bufSize buf : Nat,
    ∀ bs : List Nat,
    bitsRem ≤ bufSize + 5 * digits.length →
    bufSize < 8 →
    decodeLoop digits bitsRem bufSize buf = Except.ok bs →
    bs.length = (bitsRem + 7) / 8 := by
  induction digits with
  | nil =>
    intro bitsRem bufSize buf bs hle hbs h
    simp only [decodeLoop, Except.ok.injEq] at h
    subst h
    rw [decodeTrail_length]
    simp only [List.length_nil, Nat.mul_zero, Nat.add_zero] at hle
    split_ifs with h0 <;> omega
  | cons d rest ih =>
    intro bitsRem bufSize buf bs hle hbs h
    simp only [List.length_cons] at hle
    rcases hv : value_of_digit d with e | v
    · simp only [decodeLoop, hv] at h
      simp at h
    · simp only [decodeLoop, hv] at h
      by_cases hbreak : bitsRem < 8 ∧ bitsRem ≤ bufSize + 5
      · rw [if_pos hbreak] at h
        simp only [Except.ok.injEq] at h
        subst h
        rw [decodeTrail_length]
        split_ifs with h0 <;> omega
      · rw [if_neg hbreak] at h
        by_cases h8 : 8 ≤ bufSize + 5
        · rw [if_pos h8] at h
          rcases hrec : decodeLoop rest (bitsRem - 8) (bufSize + 5 - 8)
              (((buf <<< 5) % 65536) ||| v) with e' | bs'
          · rw [hrec] at h
            cases h
          · rw [hrec] at h
            simp only [Except.ok.injEq] at h
            subst h
            have hbr8 : 8 ≤ bitsRem := by
              rcases Nat.lt_or_ge bitsRem 8 with hl | hg
              · exact absurd ⟨hl, by omega⟩ hbreak
              · exact hg
            have := ih (bitsRem - 8) (bufSize + 5 - 8)
              (((buf <<< 5) % 65536) ||| v) bs' (by omega) (by omega) hrec
            rw [List.length_cons, this]
            omega
        · rw [if_neg h8] at h
          exact ih bitsRem (bufSize + 5) _ bs (by omega) (by omega) h

/-! ### Early stop: input beyond the stop point is never consumed -/

theorem decodeLoop_append (digits : List Nat) : ∀ (t : List Nat) (bitsRem bufSize buf : Nat),
    stopsLoop digits bitsRem bufSize = true →
    decodeLoop (digits ++ t) bitsRem bufSize buf = decodeLoop digits bitsRem bufSize buf := by
  induction digits with
  | nil =>
    intro t bitsRem bufSize buf hstop
    simp [stopsLoop] at hstop
  | cons d rest ih =>
    intro t bitsRem bufSize buf hstop
    simp only [stopsLoop] at hstop
    rcases hv : value_of_digit d with e | v
    · simp only [List.cons_append, decodeLoop, hv]
    · rw [hv] at hstop
      simp only at hstop
      simp only [List.cons_append, decodeLoop, hv, List.append_eq]
      by_cases hbreak : bitsRem < 8 ∧ bitsRem ≤ bufSize + 5
      · rw [if_pos hbreak, if_pos hbreak]
      · rw [if_neg hbreak, if_neg hbreak]
        rw [if_neg hbreak] at hstop
        by_cases h8 : 8 ≤ bufSize + 5
        · rw [if_pos h8, if_pos h8]
          rw [if_pos h8] at hstop
          rw [ih t (bitsRem - 8) (bufSize + 5 - 8) _ hstop]
        · rw [if_neg h8, if_neg h8]
          rw [if_neg h8] at hstop
          exact ih t bitsRem (bufSize + 5) _ hstop

/-! ### The claims -/

/-- C1: Full-buffer round trip: for every byte sequence `d`,
`decode_full_bytes (encode_full_bytes d)` succeeds and returns exactly `d`
(no extra fabricated trailing byte), because `decode_full_bytes` uses the
bit length `len * 5` rounded down to the next byte boundary. -/
theorem c1_full_buffer_round_trip (d : List Nat) (h256 : ∀ b ∈ d, b < 256) :
    (encode_full_bytes d).bind decode_full_bytes = some (Except.ok d) := by
  unfold encode_full_bytes
  rw [encode_spec d (d.length * 8) h256 (Nat.le_refl _), Option.some_bind]
  have hfull : (bytesToBits d).take (d.length * 8) = bytesToBits d :=
    List.take_of_length_le (by rw [bytesToBits_length]; omega)
  rw [hfull]
  unfold decode_full_bytes
  have hElen : (chunkEnc (bytesToBits d)).length = (8 * d.length + 4) / 5 := by
    rw [chunkEnc_length, bytesToBits_length]
  have hbits : (chunkEnc (bytesToBits d)).length * 5 / 8 * 8 = 8 * d.length := by
    rw [hElen]; omega
  rw [hbits, decode_spec _ _ (validate_chunkEnc _) (by rw [hElen]; omega),
    symbolsBits_chunkEnc, List.take_left' (bytesToBits_length d),
    chunkDec_bytesToBits d h256]

theorem c1_witness :
    (∀ b ∈ [112, 101, 116, 101, 114], b < 256)
    ∧ (encode_full_bytes [112, 101, 116, 101, 114]).bind decode_full_bytes
        = some (Except.ok [112, 101, 116, 101, 114]) :=
  ⟨by decide, c1_full_buffer_round_trip [112, 101, 116, 101, 114] (by decide)⟩

/-- C2: Bit-precision round trip: for every byte sequence `d` and every
`bits ≤ len(d) * 8`, `decode (encode d bits) bits` succeeds and returns the
first `bits` bits of `d`, left-aligned and zero-padded in the low bits of
the final byte up to a byte boundary. -/
theorem c2_bit_precision_round_trip (d : List Nat) (bits : Nat)
    (h256 : ∀ b ∈ d, b < 256) (hbits : bits ≤ d.length * 8) :
    (encode d bits).bind (fun e => decode e bits)
      = some (Except.ok (chunkDec ((bytesToBits d).take bits))) := by
  rw [encode_spec d bits h256 hbits, Option.some_bind]
  have hBlen : ((bytesToBits d).take bits).length = bits := by
    rw [List.length_take, bytesToBits_length]; omega
  have hElen : (chunkEnc ((bytesToBits d).take bits)).length = (bits + 4) / 5 := by
    rw [chunkEnc_length, hBlen]
  rw [decode_spec _ bits (validate_chunkEnc _) (by rw [hElen]; omega),
    symbolsBits_chunkEnc, List.take_left' hBlen]

theorem c2_witness :
    (∀ b ∈ [212, 122, 4, 255], b < 256)
    ∧ 25 ≤ ([212, 122, 4, 255] : List Nat).length * 8
    ∧ (encode [212, 122, 4, 255] 25).bind (fun e => decode e 25)
        = some (Except.ok (chunkDec ((bytesToBits [212, 122, 4, 255]).take 25))) :=
  ⟨by decide, by decide,
   c2_bit_precision_round_trip [212, 122, 4, 255] 25 (by decide) (by decide)⟩

/-- C3: Validation correctness: `validate s = true` iff `decode_full_bytes s`
returns `Ok`; when `validate s = false`, `decode_full_bytes s` returns the
invalid-digit error as a recoverable `Err` value (not a panic) with no
partial output. -/
theorem c3_validation_correctness (s : List Nat) :
    (validate s = true ↔ ∃ bs, decode_full_bytes s = some (Except.ok bs))
    ∧ (validate s = false →
        decode_full_bytes s = some (Except.error "not a zbase32 digit")) := by
  have herr : validate s = false →
      decode_full_bytes s = some (Except.error "not a zbase32 digit") := by
    intro hvf
    unfold decode_full_bytes decode
    rw [if_pos (by omega),
      decodeLoop_err s _ 0 65535 hvf (by omega) (by omega)]
  refine ⟨⟨?_, ?_⟩, herr⟩
  · intro hval
    unfold decode_full_bytes
    rw [decode_spec s _ hval (by omega)]
    exact ⟨_, rfl⟩
  · rintro ⟨bs, hbs⟩
    rcases hv : validate s
    · rw [herr hv] at hbs
      simp at hbs
    · rfl

theorem c3_witness :
    validate [65] = false
    ∧ decode_full_bytes [65] = some (Except.error "not a zbase32 digit") :=
  ⟨by decide, (c3_validation_correctness [65]).2 (by decide)⟩

set_option maxRecDepth 40000 in
/-- C4: Alphabet bijection: `ALPHABET` is the fixed 32-byte sequence
"ybndrfg8ejkmcpqxot1uwisza345h769" with no repeated symbol; every byte in it
looks up to a value `v` with `ALPHABET[v] = c` (so `validate [c]`), and every
byte value outside it looks up to the invalid-digit error (so `¬validate [c]`). -/
theorem c4_alphabet_bijection :
    ALPHABET = "ybndrfg8ejkmcpqxot1uwisza345h769".toList.map Char.toNat
    ∧ ALPHABET.length = 32
    ∧ ALPHABET.Nodup
    ∧ (∀ c ∈ ALPHABET, ∃ v, value_of_digit c = Except.ok v
        ∧ ALPHABET.getD v 0 = c ∧ validate [c] = true)
    ∧ (∀ c : Nat, c < 256 → c ∉ ALPHABET →
        value_of_digit c = Except.error "not a zbase32 digit" ∧ validate [c] = false) := by
  have htab : ∀ c ∈ ALPHABET, CONVERSION_TABLE.getD c none = some (digit_value c)
      ∧ ALPHABET.getD (digit_value c) 0 = c ∧ validate [c] = true := by decide
  have hinv : ∀ c : Nat, c < 256 → c ∉ ALPHABET →
      CONVERSION_TABLE.getD c none = none ∧ validate [c] = false := by decide
  refine ⟨by decide, by decide, by decide, ?_, ?_⟩
  · intro c hc
    obtain ⟨h1, h2, h3⟩ := htab c hc
    exact ⟨digit_value c, by unfold value_of_digit; rw [h1], h2, h3⟩
  · intro c hc hnc
    obtain ⟨h1, h2⟩ := hinv c hc hnc
    exact ⟨by unfold value_of_digit; rw [h1], h2⟩

theorem c4_witness :
    (121 ∈ ALPHABET)
    ∧ (∃ v, value_of_digit 121 = Except.ok v
        ∧ ALPHABET.getD v 0 = 121 ∧ validate [121] = true)
    ∧ (65 < 256) ∧ (65 ∉ ALPHABET)
    ∧ value_of_digit 65 = Except.error "not a zbase32 digit"
    ∧ validate [65] = false := by
  refine ⟨by decide, c4_alphabet_bijection.2.2.2.1 121 (by decide), by decide,
    by decide, ?_, ?_⟩
  · exact (c4_alphabet_bijection.2.2.2.2 65 (by decide) (by decide)).1
  · exact (c4_alphabet_bijection.2.2.2.2 65 (by decide) (by decide)).2

/-- C5: Length invariants: a successful `encode d bits` has exactly
`ceil(bits / 5)` symbols and a successful `decode s bits` has exactly
`ceil(bits / 8)` bytes. -/
theorem c5_length_invariants :
    (∀ (d : List Nat) (bits : Nat) (e : List Nat), encode d bits = some e →
        e.length = if bits % 5 = 0 then bits / 5 else bits / 5 + 1)
    ∧ (∀ (s : List Nat) (bits : Nat) (bs : List Nat),
        decode s bits = some (Except.ok bs) →
        bs.length = if bits % 8 = 0 then bits / 8 else bits / 8 + 1) := by
  constructor
  · intro d bits e he
    unfold encode at he
    split_ifs at he with hc
    have h := Option.some.inj he
    subst h
    rw [encodeLoop_length]
    split_ifs with h5 <;> omega
  · intro s bits bs hbs
    unfold decode at hbs
    split_ifs at hbs with hc
    have h := Option.some.inj hbs
    rw [decodeLoop_length s bits 0 65535 bs (by omega) (by norm_num) h]
    split_ifs with h8 <;> omega

theorem c5_witness :
    ([121, 121] : List Nat).length = (if 10 % 5 = 0 then 10 / 5 else 10 / 5 + 1)
    ∧ ([0, 0] : List Nat).length = (if 10 % 8 = 0 then 10 / 8 else 10 / 8 + 1) := by
  constructor
  · exact c5_length_invariants.1 [0, 0] 10 [121, 121]
      (by rw [encode_spec [0, 0] 10 (by decide) (by decide)]; rfl)
  · exact c5_length_invariants.2 [121, 121] 10 [0, 0] rfl

/-- C6: Too-short precondition: `encode d bits` panics exactly when
`len(d) * 8 < bits` and `decode s bits` panics exactly when
`len(s) * 5 < bits`; under the respective precondition each operation
returns a value (`encode` a string, `decode` a `Result`). -/
theorem c6_too_short_precondition (d : List Nat) (bits : Nat) :
    (encode d bits = none ↔ d.length * 8 < bits)
    ∧ (decode d bits = none ↔ d.length * 5 < bits)
    ∧ (bits ≤ d.length * 8 → ∃ e, encode d bits = some e)
    ∧ (bits ≤ d.length * 5 → ∃ r, decode d bits = some r) := by
  refine ⟨?_, ?_, ?_, ?_⟩
  · constructor
    · intro hh
      by_contra hcon
      unfold encode at hh
      rw [if_pos (by omega)] at hh
      exact Option.noConfusion hh
    · intro hh
      unfold encode
      rw [if_neg (by omega)]
  · constructor
    · intro hh
      by_contra hcon
      unfold decode at hh
      rw [if_pos (by omega)] at hh
      exact Option.noConfusion hh
    · intro hh
      unfold decode
      rw [if_neg (by omega)]
  · intro h
    unfold encode
    rw [if_pos (by omega)]
    exact ⟨_, rfl⟩
  · intro h
    unfold decode
    rw [if_pos (by omega)]
    exact ⟨_, rfl⟩

theorem c6_witness :
    (encode [1, 2, 3, 4] 33 = none ↔ ([1, 2, 3, 4] : List Nat).length * 8 < 33)
    ∧ (decode [1, 2, 3, 4] 21 = none ↔ ([1, 2, 3, 4] : List Nat).length * 5 < 21)
    ∧ (32 ≤ ([1, 2, 3, 4] : List Nat).length * 8 → ∃ e, encode [1, 2, 3, 4] 32 = some e) :=
  ⟨(c6_too_short_precondition [1, 2, 3, 4] 33).1,
   (c6_too_short_precondition [1, 2, 3, 4] 21).2.1,
   (c6_too_short_precondition [1, 2, 3, 4] 32).2.2.1⟩

/-- C7: Superfluous input bits never influence encode output: if two byte
sequences agree on their first `bits` bits, their encodings at `bits`
coincide; trailing bits beyond `bits` never affect the emitted symbols. -/
theorem c7_superfluous_bits (d1 d2 : List Nat) (bits : Nat)
    (h1 : ∀ b ∈ d1, b < 256) (h2 : ∀ b ∈ d2, b < 256)
    (hb1 : bits ≤ d1.length * 8) (hb2 : bits ≤ d2.length * 8)
    (hagree : (bytesToBits d1).take bits = (bytesToBits d2).take bits) :
    encode d1 bits = encode d2 bits := by
  rw [encode_spec d1 bits h1 hb1, encode_spec d2 bits h2 hb2, hagree]

theorem c7_witness :
    (∀ b ∈ [255, 255], b < 256) ∧ (∀ b ∈ [128, 0], b < 256)
    ∧ 1 ≤ ([255, 255] : List Nat).length * 8 ∧ 1 ≤ ([128, 0] : List Nat).length * 8
    ∧ (bytesToBits [255, 255]).take 1 = (bytesToBits [128, 0]).take 1
    ∧ encode [255, 255] 1 = encode [128, 0] 1 :=
  ⟨by decide, by decide, by decide, by decide, by decide,
   c7_superfluous_bits [255, 255] [128, 0] 1
     (by decide) (by decide) (by decide) (by decide) (by decide)⟩

/-- C8 counterexample: the loop validates each symbol before checking the
stop condition, so with `bits = 0` the first symbol is still consumed and
validated: `decode [65] 0` (the byte of "A") errors instead of returning
`Ok []`, refuting the claim that `decode s 0` succeeds for every `s`. -/
theorem c8_counterexample :
    decode [65] 0 = some (Except.error "not a zbase32 digit")
    ∧ decode [65] 0 ≠ some (Except.ok ([] : List Nat)) := by
  refine ⟨rfl, fun hh => ?_⟩
  have h1 : decode [65] 0 = some (Except.error "not a zbase32 digit") := rfl
  rw [h1] at hh
  exact Except.noConfusion (Option.some.inj hh)

/-- C8 (amended): decode checks the stop condition only after consuming and
validating a symbol. Once the loop has stopped inside `s` (by break or
error), appended symbols are ignored and not validated. For `bits = 0` the
first symbol is still consumed and validated: `decode s 0 = Ok []` exactly
when `s` is empty or its first symbol is a valid digit, and
`decode (d :: s) 0` is the invalid-digit error whenever `d` is not a valid
digit. -/
theorem c8_early_stop :
    (∀ (s t : List Nat) (bits : Nat), bits ≤ s.length * 5 →
        stopsLoop s bits 0 = true →
        decode (s ++ t) bits = decode s bits)
    ∧ (∀ (d : Nat) (s : List Nat), (∃ v, value_of_digit d = Except.ok v) →
        decode (d :: s) 0 = some (Except.ok []))
    ∧ (∀ (d : Nat) (s : List Nat) (e : String), value_of_digit d = Except.error e →
        decode (d :: s) 0 = some (Except.error e))
    ∧ decode [] 0 = some (Except.ok []) := by
  refine ⟨?_, ?_, ?_, rfl⟩
  · intro s t bits hle hstop
    unfold decode
    rw [if_pos (by simp only [List.length_append]; omega), if_pos (by omega),
      decodeLoop_append s t bits 0 65535 hstop]
  · rintro d s ⟨v, hv⟩
    unfold decode
    rw [if_pos (by omega)]
    simp only [decodeLoop, hv]
    rw [if_pos ⟨by norm_num, by omega⟩]
    rfl
  · intro d s e hv
    unfold decode
    rw [if_pos (by omega)]
    simp only [decodeLoop, hv]

theorem c8_witness :
    1 ≤ ([121] : List Nat).length * 5 ∧ stopsLoop [121] 1 0 = true
    ∧ decode ([121] ++ [65]) 1 = decode [121] 1
    ∧ (∃ v, value_of_digit 121 = Except.ok v)
    ∧ decode [121, 65] 0 = some (Except.ok [])
    ∧ value_of_digit 65 = Except.error "not a zbase32 digit"
    ∧ decode [65, 121] 0 = some (Except.error "not a zbase32 digit") :=
  ⟨by decide, by decide, c8_early_stop.1 [121] [65] 1 (by decide) (by decide),
   ⟨0, rfl⟩, c8_early_stop.2.1 121 [65] ⟨0, rfl⟩,
   rfl, c8_early_stop.2.2.1 65 [121] "not a zbase32 digit" rfl⟩

/-- C9: the literal boundary examples (bytes of "", "y", "o", "testdata",
"qt1zg7drcf4gn", "qb1ze3m1", "peter"). -/
theorem c9_boundary_examples :
    encode [] 0 = some []
    ∧ encode [0] 1 = some [121]
    ∧ encode [128] 1 = some [111]
    ∧ decode [121] 1 = some (Except.ok [0])
    ∧ decode [111] 1 = some (Except.ok [128])
    ∧ encode [116, 101, 115, 116, 100, 97, 116, 97] 64
        = some [113, 116, 49, 122, 103, 55, 100, 114, 99, 102, 52, 103, 110]
    ∧ decode [113, 98, 49, 122, 101, 51, 109, 49] 40
        = some (Except.ok [112, 101, 116, 101, 114]) := by
  refine ⟨?_, ?_, ?_, rfl, rfl, ?_, rfl⟩
  · rw [encode_spec [] 0 (by decide) (by decide)]
    rfl
  · rw [encode_spec [0] 1 (by decide) (by decide)]
    decide
  · rw [encode_spec [128] 1 (by decide) (by decide)]
    decide
  · rw [encode_spec [116, 101, 115, 116, 100, 97, 116, 97] 64 (by decide) (by decide)]
    decide

/-- C10: strict whitespace policy: space (0x20), tab (0x09) and newline
(0x0A) are invalid digits — `validate` rejects any input containing them,
and the decode loop errors the moment it consumes one; no byte outside the
alphabet is ever skipped as a separator. -/
theorem c10_strict_whitespace :
    (∀ s : List Nat, (32 ∈ s ∨ 9 ∈ s ∨ 10 ∈ s) → validate s = false)
    ∧ (∀ ws : Nat, ws = 9 ∨ ws = 10 ∨ ws = 32 →
        value_of_digit ws = Except.error "not a zbase32 digit")
    ∧ (∀ (ws : Nat) (rest : List Nat) (bitsRem bufSize buf : Nat),
        ws = 9 ∨ ws = 10 ∨ ws = 32 →
        decodeLoop (ws :: rest) bitsRem bufSize buf
          = Except.error "not a zbase32 digit") := by
  refine ⟨?_, ?_, ?_⟩
  · intro s hs
    simp only [validate]
    refine List.all_eq_false.mpr ?_
    rcases hs with h | h | h
    · exact ⟨32, h, by decide⟩
    · exact ⟨9, h, by decide⟩
    · exact ⟨10, h, by decide⟩
  · rintro ws (rfl | rfl | rfl) <;> rfl
  · rintro ws rest bitsRem bufSize buf (rfl | rfl | rfl) <;> rfl

theorem c10_witness :
    (32 ∈ [121, 32, 121] ∨ 9 ∈ [121, 32, 121] ∨ 10 ∈ [121, 32, 121])
    ∧ validate [121, 32, 121] = false
    ∧ value_of_digit 32 = Except.error "not a zbase32 digit"
    ∧ decodeLoop [32, 121] 10 0 65535 = Except.error "not a zbase32 digit" :=
  ⟨by decide, c10_strict_whitespace.1 [121, 32, 121] (by decide),
   c10_strict_whitespace.2.1 32 (by decide),
   c10_strict_whitespace.2.2 32 [121] 10 0 65535 (by decide)⟩

end Zbase32
